import Mathlib

/-!
Verification of the gh-dl discovery/download/archive pipeline.

This development shallowly embeds the Go sources of gh-dl:
the rate-limit and Link-header parsing of the discovery worker
(`checkRateLimit`, `checkPageCount`, `requestRepos`, the page loop of
`discoverRepos`), the clone wrapper (`download`), the download
coordinator (`consumeDls`), the archiver (`archive`, `insert`), and a
small-step transition system for the dispatcher/discovery/download
concurrency of the main program (WaitGroup counting, descriptor
production and consumption).

Machine integers are modelled as Nat/Int, HTTP headers as association
lists, the network and the git subprocess as explicit environment
scripts, and Go strings (ASCII in all inputs considered here) as Lean
strings or character lists.
-/

namespace GhDl

/-! ### Models of the Go standard library pieces used by the sources -/

/-- Model of Go `http.Header.Get`: first value stored under the key, or the
empty string when absent.  Go canonicalizes header keys; all keys in this
development are already written in canonical form. -/
def hGet (hdrs : List (String × String)) (key : String) : String :=
  match hdrs.find? (fun p => p.1 == key) with
  | some p => p.2
  | none => ""

/-- Does the character list start with the given pattern? -/
def startsWithL : List Char → List Char → Bool
  | [], _ => true
  | _ :: _, [] => false
  | a :: as, b :: bs => a == b && startsWithL as bs

/-- Splitter behind the model of Go `strings.Split`: `fuel` is an upper
bound on the length of the remaining input (structural recursion on it
keeps the definition kernel-computable); `acc` holds the reversed current
piece. -/
def splitOnAuxL (sep : List Char) : Nat → List Char → List Char → List (List Char)
  | _, [], acc => [acc.reverse]
  | 0, s, acc => [acc.reverse ++ s]
  | fuel + 1, c :: cs, acc =>
    if startsWithL sep (c :: cs) then
      acc.reverse :: splitOnAuxL sep fuel ((c :: cs).drop sep.length) []
    else
      splitOnAuxL sep fuel cs (c :: acc)

/-- Model of Go `strings.Split(s, sep)` for a non-empty separator: split
around every non-overlapping occurrence of `sep`, leftmost first.  Like
the Go function it returns `[""]` on the empty string and never returns
an empty list. -/
def splitOnGo (s sep : String) : List String :=
  (splitOnAuxL sep.toList s.toList.length s.toList []).map String.mk

/-- Decimal digit accumulator shared by the `strconv` models: consumes the
remaining characters, failing on any non-digit. -/
def parseDigitsAux : List Char → Nat → Option Nat
  | [], acc => some acc
  | c :: cs, acc =>
    if c.isDigit then parseDigitsAux cs (acc * 10 + (c.toNat - 48)) else none

/-- Model of Go `strconv.ParseInt(s, 10, 64)` and `strconv.Atoi`: optional
sign followed by at least one digit, nothing else.  Int64 overflow is not
modelled; every integer appearing in this development is far below 2^63. -/
def parseIntGo (s : String) : Option Int :=
  match s.toList with
  | [] => none
  | '+' :: cs =>
    match cs with
    | [] => none
    | _ => (parseDigitsAux cs 0).map (fun n => (n : Int))
  | '-' :: cs =>
    match cs with
    | [] => none
    | _ => (parseDigitsAux cs 0).map (fun n => -(n : Int))
  | cs => (parseDigitsAux cs 0).map (fun n => (n : Int))

/-- Model of the Go slice expression `s[1 : len(s)-2]` on an ASCII string:
drop the first character and the last two. -/
def goSlice1ToLenSub2 (s : String) : String :=
  String.mk (((s.toList.drop 1).dropLast).dropLast)

/-- Model of `url.Parse` restricted to what the sources read from the
result: `RawQuery` is everything after the first `?`, with any fragment
after `#` removed first. -/
def rawQueryOf (s : String) : String :=
  let beforeFrag := (splitOnGo s "#").headD ""
  match splitOnGo beforeFrag "?" with
  | [] => ""
  | [_] => ""
  | _ :: rest => String.intercalate "?" rest

/-- Key of one `k=v` piece of a raw query (Go `url.ParseQuery` cuts at the
first `=`). -/
def pairKey (p : String) : String :=
  (splitOnGo p "=").headD p

/-- Value of one `k=v` piece of a raw query. -/
def pairVal (p : String) : String :=
  match splitOnGo p "=" with
  | [] => ""
  | [_] => ""
  | _ :: rest => String.intercalate "=" rest

/-- Model of Go `u.Query().Get(key)`: first value bound to `key` in the raw
query, or the empty string.  Percent-unescaping is not modelled; no input
in this development contains escapes. -/
def queryGet (rawQuery key : String) : String :=
  match (splitOnGo rawQuery "&").find? (fun p => pairKey p == key) with
  | some p => pairVal p
  | none => ""

/-! ### checkRateLimit (src/unnamed/part_001 lines 192-209; the version in
src/query.go lines 169-182 differs only by a verbose log message on the
non-exhausted path) -/

/-- Error value produced by `checkRateLimit`.  The source builds
`errors.New("rate limit exceeded")` when `strconv.ParseInt` fails, and
`fmt.Errorf("rate limit exceeded, will reset %s", time.Unix(reset, 0))`
otherwise; the embedding keeps the parsed `reset` argument of that
rendering explicit instead of modelling Go time formatting. -/
inductive RateLimitErr where
  | exceeded
  | exceededReset (reset : Int)
  deriving DecidableEq

/-- checkRateLimit, translated from src/unnamed/part_001 lines 192-209.
Returns `none` when the check passes.  Note that the exhausted branch
parses the `X-RateLimit-Remaining` header (the string `"0"` that was just
compared) as the reset timestamp; it never reads `X-RateLimit-Reset`. -/
def checkRateLimit (hdrs : List (String × String)) : Option RateLimitErr :=
  if hGet hdrs "X-RateLimit-Remaining" ≠ "0" then
    none
  else
    match parseIntGo (hGet hdrs "X-RateLimit-Remaining") with
    | none => some .exceeded
    | some reset => some (.exceededReset reset)

/-! ### checkPageCount (src/unnamed/part_001 lines 211-242) and pageCount
(src/query.go lines 184-210) -/

/-- Literal `rel="last"` compared against the second part of a link
element. -/
def relLast : String := "rel=\"last\""

/-- Loop body of checkPageCount: the Go loop runs
`for i := len(links)-1; i > 0; i--`, so the argument here is the current
loop variable and the function returns once it would reach 0. -/
def checkPageCountAux (links : List String) : Nat → Int
  | 0 => -1
  | i + 1 =>
    let parts := splitOnGo (links.getD (i + 1) "") "; "
    if parts.length ≠ 2 ∨ (parts.getD 0 "").length < 2 ∨ parts.getD 1 "" ≠ relLast then
      checkPageCountAux links i
    else
      let n := parseIntGo (queryGet (rawQueryOf (goSlice1ToLenSub2 (parts.getD 0 ""))) "page")
      match n with
      | none => -1
      | some n => n

/-- checkPageCount, translated from src/unnamed/part_001 lines 211-242.
Splits the Link header on `", "`, scans the elements from the back down to
index 1 (index 0 is never examined), and on the first element whose second
part is `rel="last"` parses the `page` query parameter of
`parts[0][1:len(parts[0])-2]`.  Returns -1 when no page count was found. -/
def checkPageCount (link : String) : Int :=
  let links := splitOnGo link ", "
  if links.length = 0 then -1
  else checkPageCountAux links (links.length - 1)

/-- Loop body of pageCount (src/query.go): same traversal, slightly
different guard order and a `(count, ok)` result. -/
def pageCountAux (links : List String) : Nat → Int × Bool
  | 0 => (0, false)
  | i + 1 =>
    let parts := splitOnGo (links.getD (i + 1) "") "; "
    if parts.length ≠ 2 ∨ parts.getD 1 "" ≠ relLast ∨ (parts.getD 0 "").length < 3 then
      pageCountAux links i
    else
      match parseIntGo (queryGet (rawQueryOf (goSlice1ToLenSub2 (parts.getD 0 ""))) "page") with
      | none => (0, false)
      | some n => (n, true)

/-- pageCount, translated from src/query.go lines 184-210. -/
def pageCount (link : String) : Int × Bool :=
  let links := splitOnGo link ", "
  if links.length = 0 then (0, false)
  else pageCountAux links (links.length - 1)

/-! ### Discovery page loop (src/unnamed/part_001: requestRepos lines
162-190 and the loop of discoverRepos lines 126-153) -/

/-- The `repo` JSON struct of src/unnamed/part_001 (fields `full_name` and
`git_url`). -/
structure RepoJ where
  name : String
  gitURL : String
  deriving DecidableEq

/-- One HTTP listing response, as the environment script delivers it:
its headers and the result of reading plus unmarshalling the body (the
read and parse failure branches of the source behave identically, so they
share one error constructor here). -/
structure PageResp where
  hdrs : List (String × String)
  body : Option (List RepoJ)
  deriving DecidableEq

/-- Errors surfaced by requestRepos: `http.Get` failure, rate-limit
exhaustion, or a body read/unmarshal failure. -/
inductive DiscErr where
  | netErr
  | rateLimit (e : RateLimitErr)
  | bodyErr
  deriving DecidableEq

/-- requestRepos, translated from src/unnamed/part_001 lines 162-190: the
response is checked for rate-limit exhaustion before the body is parsed,
and the page count is overwritten only when checkPageCount found one.
`resp = none` models an `http.Get` error.  Returns the parsed repos and
the updated `pages` value of the caller. -/
def requestRepos (resp : Option PageResp) (pages : Int) : Except DiscErr (List RepoJ × Int) :=
  match resp with
  | none => .error .netErr
  | some r =>
    match checkRateLimit r.hdrs with
    | some e => .error (.rateLimit e)
    | none =>
      match r.body with
      | none => .error .bodyErr
      | some repos =>
        let n := checkPageCount (hGet r.hdrs "Link")
        .ok (repos, if n ≠ -1 then n else pages)

/-- Result of one owner's discovery: how many repos were counted, which
descriptors were emitted, and how many page requests were issued; on the
error path the source reports the error and returns, discarding the
count. -/
inductive DiscResult where
  | ok (count : Nat) (emitted : List RepoJ) (fetches : Nat)
  | err (e : DiscErr) (emitted : List RepoJ) (fetches : Nat)
  deriving DecidableEq

/-- Page fetch against the environment script: page `p` of the listing is
entry `p - 1` of the script, and any page beyond the script is a network
error (the server stops answering). -/
def fetchPage (script : List (Option PageResp)) (page : Int) : Option PageResp :=
  (script.getD (page - 1).toNat none)

/-- Page loop of discoverRepos, translated from src/unnamed/part_001 lines
126-153: `for page, pages := 1, 1; page <= pages; page++`, requesting each
page, stopping on error or on an empty page, accumulating the count and
sending each repo onward. -/
def queryPages (script : List (Option PageResp)) (page pages : Int) (count : Nat)
    (emitted : List RepoJ) (fetches : Nat) : DiscResult :=
  if page ≤ pages then
    match hr : requestRepos (fetchPage script page) pages with
    | .error e => .err e emitted (fetches + 1)
    | .ok (repos, pages') =>
      if repos.length = 0 then
        .ok count emitted (fetches + 1)
      else
        queryPages script (page + 1) pages' (count + repos.length)
          (emitted ++ repos) (fetches + 1)
  else
    .ok count emitted fetches
termination_by (Int.toNat (script.length + 2 - page))
decreasing_by
  have hlt : (page - 1).toNat < script.length := by
    by_contra hge
    push_neg at hge
    have : fetchPage script page = none := by
      unfold fetchPage
      exact List.getD_eq_default _ _ (by omega)
    rw [this] at hr
    simp [requestRepos] at hr
  omega

/-- discoverRepos entry point for one owner (src/unnamed/part_001 lines
110-160): the loop starts at page 1 with a provisional page count of 1. -/
def discoverRepos (script : List (Option PageResp)) : DiscResult :=
  queryPages script 1 1 0 [] 0

/-! ### download (src/dl.go lines 58-98) -/

/-- Scripted behavior of the `git clone` subprocess: it either exits after
`t` time units with the given success flag, or it never returns. -/
inductive CloneBehavior where
  | finishes (t : Nat) (ok : Bool)
  | hangs
  deriving DecidableEq

/-- Observable outcome of one `download` call: success, a failure whose
`timedOut` flag records whether the reported error was
`context.DeadlineExceeded` (as opposed to a generic clone error) and whose
`dirRemoved` flag records that `os.RemoveAll` deleted the repository's
partial output, or the call never returning. -/
inductive DlOutcome where
  | success
  | failure (timedOut : Bool) (dirRemoved : Bool)
  | neverReturns
  deriving DecidableEq

/-- download, translated from src/dl.go lines 58-98.  `timeout = 0` skips
installing a context deadline; otherwise the subprocess is cancelled once
the deadline has passed, `cmd.Output` then reports an error, the partial
directory is removed, and the error is replaced by `ctx.Err()` exactly
when the deadline was exceeded.  A clone finishing at `t ≤ timeout`
completes before cancellation. -/
def download (timeout : Nat) (cb : CloneBehavior) : DlOutcome :=
  let deadline : Option Nat := if timeout = 0 then none else some timeout
  match deadline, cb with
  | none, .finishes _ ok => if ok then .success else .failure false true
  | none, .hangs => .neverReturns
  | some d, .finishes t ok =>
    if d < t then .failure true true
    else if ok then .success
    else .failure false true
  | some _, .hangs => .failure true true

/-! ### consumeDls (src/dl.go lines 42-56) -/

/-- The `dl` descriptor struct of src/dl.go, extended with the scripted
exit status of its clone subprocess (oracle data carried along so that the
transition system below can resolve downloads). -/
structure Desc where
  git : String
  ssh : String
  fullname : String
  owner : String
  priv : Bool
  cloneOk : Bool
  deriving DecidableEq

/-- Action taken by consumeDls for one received descriptor, tagged with
the position of that descriptor in the input: either the skip message plus
the immediate `wg.Done()` of the exclusion branch, or the launch of a
download goroutine. -/
inductive DlEvent where
  | skipped (i : Nat) (fullname : String)
  | cloneLaunched (i : Nat) (d : Desc)
  deriving DecidableEq

/-- Units of outstanding work released by consumeDls itself for one event
(the launched download releases its unit later, inside download). -/
def eventReleasesNow : DlEvent → Nat
  | .skipped .. => 1
  | .cloneLaunched .. => 0

/-- Loop of consumeDls, translated from src/dl.go lines 42-56, with the
`excluded` map modelled by the list of its true keys and the channel by
the list of descriptors received on it; `i` numbers the descriptors. -/
def consumeDlsAux (excluded : List String) (i : Nat) : List Desc → List DlEvent
  | [] => []
  | d :: rest =>
    if excluded.contains d.fullname then
      .skipped i d.fullname :: consumeDlsAux excluded (i + 1) rest
    else
      .cloneLaunched i d :: consumeDlsAux excluded (i + 1) rest

/-- consumeDls, translated from src/dl.go lines 42-56. -/
def consumeDls (excluded : List String) (ins : List Desc) : List DlEvent :=
  consumeDlsAux excluded 0 ins

/-! ### archive (src/archive.go lines 30-71) -/

/-- Errors archive can return: `os.Create` failure, `ioutil.ReadDir`
failure on the working root, or the failure of the `i`-th insert call. -/
inductive ArchErr where
  | createErr
  | readDirErr
  | insertErr (i : Nat)
  deriving DecidableEq

/-- Environment script for one archive call: the gzip level flag, whether
`os.Create` succeeds, the result of reading the working root (`none`
models a ReadDir error; otherwise one insert outcome per directory entry,
`false` meaning that insert call fails), and whether the three deferred
Close calls succeed. -/
structure ArchiveEnv where
  level : Int
  createOk : Bool
  readDir : Option (List Bool)
  closeTarOk : Bool
  closeGzipOk : Bool
  closeFileOk : Bool
  deriving DecidableEq

/-- Observable result of one archive call: the returned error, whether the
output file was created, whether the deferred `os.Remove` ran (it checks
the local `err` variable after the three Close calls), and whether the
invalid-gzip-level fallback path was taken. -/
structure ArchResult where
  err : Option ArchErr
  created : Bool
  removed : Bool
  gzipFallback : Bool
  deriving DecidableEq

/-- Go `gzip.NewWriterLevel` succeeds exactly for levels -2 through 9. -/
def gzipLevelValid (level : Int) : Bool :=
  -2 ≤ level && level ≤ 9

/-- Index of the first failing insert call, mirroring the loop of archive
that returns on the first error. -/
def firstInsertErrIdx : List Bool → Option Nat
  | [] => none
  | ok :: rest =>
    if ok then (firstInsertErrIdx rest).map (· + 1) else some 0

/-- archive, translated from src/archive.go lines 30-71.  The deferred
removal closure was registered before the deferred Close calls, so it runs
last and sees the final value of the local `err` variable; the return
values of `t.Close()`, `g.Close()` and `final.Close()` are discarded and
never assigned to `err`, which is why the close flags of the environment
do not influence the result. -/
def archive (env : ArchiveEnv) : ArchResult :=
  if !env.createOk then
    { err := some .createErr, created := false, removed := false, gzipFallback := false }
  else
    let fallback := !gzipLevelValid env.level
    match env.readDir with
    | none =>
      { err := some .readDirErr, created := true, removed := true, gzipFallback := fallback }
    | some entries =>
      match firstInsertErrIdx entries with
      | some i =>
        { err := some (.insertErr i), created := true, removed := true, gzipFallback := fallback }
      | none =>
        { err := none, created := true, removed := false, gzipFallback := fallback }

/-! ### insert (src/archive.go lines 73-126) -/

/-- Directory tree under the working root.  Names are character lists (the
sources only ever produce ASCII names, so Go's byte strings and Lean's
character lists agree). -/
inductive FsNode where
  | file (name : List Char)
  | dir (name : List Char) (children : List FsNode)

/-- Name of a node, as `os.FileInfo.Name()` reports it. -/
def nodeName : FsNode → List Char
  | .file n => n
  | .dir n _ => n

/-- Model of `filepath.Join`/`filepath.Rel` at component granularity: join
path components with the host separator `sep`. -/
def joinSep (sep : Char) : List (List Char) → List Char
  | [] => []
  | [c] => c
  | c :: cs => c ++ sep :: joinSep sep cs

/-- Model of `filepath.ToSlash`: replace every host separator by a forward
slash. -/
def toSlashL (sep : Char) (s : List Char) : List Char :=
  s.map (fun c => if c = sep then '/' else c)

mutual

/-- Walk of `filepath.Walk(full, walk)` inside insert: the argument `r`
holds the components of the visited path relative to the working root
(`filepath.Rel(base, path)` at component granularity), the visited node
included.  Each visited file or directory contributes one tar header whose
name is `filepath.ToSlash` of that relative path. -/
def walkNames (sep : Char) : List (List Char) → FsNode → List (List Char)
  | r, .file _ => [toSlashL sep (joinSep sep r)]
  | r, .dir _ children => toSlashL sep (joinSep sep r) :: walkChildren sep r children

/-- Walk of the children of a directory, left to right. -/
def walkChildren (sep : Char) : List (List Char) → List FsNode → List (List Char)
  | _, [] => []
  | r, c :: cs => walkNames sep (r ++ [nodeName c]) c ++ walkChildren sep r cs

end

/-- insert, translated from src/archive.go lines 73-126: `info` is one
entry of `ReadDir(base)`; `ReadDir` of that entry fails when it is not a
directory, a directory with zero entries contributes nothing, and
otherwise the subtree rooted at `base/name` is walked.  Returns the tar
entry names written. -/
def insert (sep : Char) (info : FsNode) : Except Unit (List (List Char)) :=
  match info with
  | .file _ => .error ()
  | .dir name children =>
    if children.length = 0 then .ok []
    else .ok (walkNames sep [name] (.dir name children))

mutual

/-- Specification-side description of the entries the spec expects from an
owner subtree: the component paths, relative to the working root, of every
file and directory in the subtree, each starting with the node's own
name. -/
def entryPaths : FsNode → List (List (List Char))
  | .file n => [[n]]
  | .dir n cs => [n] :: (entryPathsList cs).map (fun p => n :: p)

/-- Entry paths of a list of sibling subtrees. -/
def entryPathsList : List FsNode → List (List (List Char))
  | [] => []
  | c :: cs => entryPaths c ++ entryPathsList cs

end

/-- Well-formedness of names used by the forward-slash theorem: no
component of the tree contains the host separator. -/
def sepFree (sep : Char) (n : List Char) : Bool :=
  !n.contains sep

mutual

/-- Every name in the subtree is free of the host separator. -/
def goodTree (sep : Char) : FsNode → Bool
  | .file n => sepFree sep n
  | .dir n cs => sepFree sep n && goodTreeList sep cs

/-- Every name in a list of subtrees is free of the host separator. -/
def goodTreeList (sep : Char) : List FsNode → Bool
  | [] => true
  | c :: cs => goodTree sep c && goodTreeList sep cs

end

/-! ### Transition system for the concurrent pipeline

Sources: main of src/unnamed/part_002 lines 155-186 (WaitGroup seeding,
dispatch, channel plumbing), consumeQueries/queryOwner/discoverRepos of
src/unnamed/part_000 (discovery tasks), and consumeDls/download of
src/dl.go (download side).

The network and the git subprocess are oracle scripts attached to the
input tokens; goroutine scheduling is the interleaving of actions.  The
`dls` channel is modelled as an unbounded FIFO queue (its Go capacity of
100 only restricts interleavings; every consumer of the channel is a loop
that never blocks on anything else, so no behavior relevant to the
counter is added by dropping the bound).  `log.Fatal` is modelled by a
`fatal` flag that stops every transition, like the process exit it
performs. -/

/-- Repository metadata returned by the GitHub client for one listed or
individually fetched repository, extended with the scripted exit status of
the clone that will later run for it. -/
structure RepoMeta where
  git : String
  ssh : String
  fullname : String
  priv : Bool
  cloneOk : Bool
  deriving DecidableEq

/-- One scripted `client.Search.Repositories` response: a transport error,
or a page of repositories together with `resp.NextPage` (0 meaning this
was the last page). -/
inductive PageRes where
  | perr
  | page (repos : List RepoMeta) (nextPage : Nat)
  deriving DecidableEq

/-- Decidable equality for `Except`, needed by the scripted task data. -/
instance {ε α : Type} [DecidableEq ε] [DecidableEq α] : DecidableEq (Except ε α) := fun x y =>
  match x, y with
  | .error a, .error b =>
    if h : a = b then .isTrue (by rw [h]) else .isFalse (by simp [h])
  | .error _, .ok _ => .isFalse (by simp)
  | .ok _, .error _ => .isFalse (by simp)
  | .ok a, .ok b =>
    if h : a = b then .isTrue (by rw [h]) else .isFalse (by simp [h])

/-- Oracle data attached to one input token: whether `mkdir` for its owner
directory succeeds, the scripted result of `client.Repositories.Get` (used
when the token names an individual repository), and the scripted listing
pages (used when the token names an owner). -/
structure TokenScript where
  mkdirOk : Bool
  fetchRepo : Except Unit RepoMeta
  pages : List PageRes
  deriving DecidableEq

/-- Classified query, as main builds it before sending it on the `queries`
channel (the `query` struct of src/unnamed/part_000). -/
inductive QueryKind where
  | qrepo (owner repoName : String)
  | quser (owner : String)
  deriving DecidableEq

/-- Classification of one argument in main (src/unnamed/part_002 lines
164-182): split on "/", one segment is an owner, two are an individual
repository, anything else is malformed. -/
def classify (arg : String) : Option QueryKind :=
  match splitOnGo arg "/" with
  | [o] => some (.quser o)
  | [o, n] => some (.qrepo o n)
  | _ => none

/-- Control state of one dispatched task.

`queued`: sent on the `queries` channel, not yet received by a
consumeQueries worker.  `fetchingRepo`: queryOwner passed mkdir on an
individual-repository query and is about to call
`client.Repositories.Get`.  `paging`: discoverRepos is about to request
the next listing page (`script` is the remaining scripted pages, `count`
the repositories counted so far).  `emitting`: a page was fetched,
`wg.Add` ran for its repositories, and `pending` still have to be sent on
the `dls` channel; `cont` records whether `resp.NextPage` was nonzero.
`finished`: the goroutine returned. -/
inductive Phase where
  | queued (q : QueryKind) (sc : TokenScript)
  | fetchingRepo (owner repoName : String) (res : Except Unit RepoMeta)
  | paging (owner : String) (script : List PageRes) (count : Nat)
  | emitting (owner : String) (pending : List RepoMeta) (script : List PageRes)
      (cont : Bool) (count : Nat)
  | finished
  deriving DecidableEq

/-- Descriptor built from fetched repository metadata and the owner of the
task that fetched it (the `dl` literal built in part_000). -/
def descOf (owner : String) (m : RepoMeta) : Desc :=
  { git := m.git, ssh := m.ssh, fullname := m.fullname, owner := owner,
    priv := m.priv, cloneOk := m.cloneOk }

/-- Global state of a run.  `counter` is the shared WaitGroup, `produced`
and `recorded` are ghost counters of descriptors sent on the `dls` channel
and of descriptor terminal outcomes (skip, success, failure), `leaked`
counts outstanding units that no remaining goroutine will ever release
(the individual-repository error path returns without `wg.Done`, and
`log.Fatal` abandons whatever is outstanding), `total` and `successful`
are the two stat counters of part_002. -/
structure St where
  args : List (String × TokenScript)
  tasks : List Phase
  queue : List Desc
  inflight : List Desc
  counter : Nat
  produced : Nat
  recorded : Nat
  leaked : Nat
  fatal : Bool
  total : Nat
  successful : Nat
  excluded : List String
  deriving DecidableEq

/-- Scheduler actions.  Task-indexed actions act on `tasks[i]`;
`finishDl j` resolves the `j`-th running download. -/
inductive Act where
  | dispatch
  | start (i : Nat)
  | fetchIndividual (i : Nat)
  | fetchPageA (i : Nat)
  | emit (i : Nat)
  | nextPageA (i : Nat)
  | finishOwner (i : Nat)
  | consume
  | finishDl (j : Nat)
  deriving DecidableEq

/-- Dispatch of the next argument by main (src/unnamed/part_002 lines
164-182). -/
def stepDispatch (s : St) : Option St :=
  match s.args with
  | [] => none
  | (arg, sc) :: rest =>
    match classify arg with
    | none =>
      -- msgs <- fmt.Errorf("arg %s invalid", arg); wg.Done()
      some { s with args := rest, counter := s.counter - 1 }
    | some q =>
      -- queries <- query{...}
      some { s with args := rest, tasks := s.tasks ++ [.queued q sc] }

/-- A consumeQueries worker receives task `i` and queryOwner runs its
mkdir and branches on the query kind (src/unnamed/part_000 lines 45-82). -/
def stepStart (s : St) (i : Nat) : Option St :=
  match s.tasks.get? i with
  | some (.queued q sc) =>
    if !sc.mkdirOk then
      -- msgs <- err; wg.Done(); return
      some { s with tasks := s.tasks.set i .finished, counter := s.counter - 1 }
    else
      match q with
      | .qrepo o n => some { s with tasks := s.tasks.set i (.fetchingRepo o n sc.fetchRepo) }
      | .quser o => some { s with tasks := s.tasks.set i (.paging o sc.pages 0) }
  | _ => none

/-- The `client.Repositories.Get` call of queryOwner returns
(src/unnamed/part_000 lines 60-78). -/
def stepFetchIndividual (s : St) (i : Nat) : Option St :=
  match s.tasks.get? i with
  | some (.fetchingRepo o n res) =>
    match res with
    | .error _ =>
      -- msgs <- err; return  (no wg.Done on this path)
      some { s with tasks := s.tasks.set i .finished, leaked := s.leaked + 1 }
    | .ok m =>
      -- out <- dl{...}; msgs <- ...; atomic.AddUint64(&total, 1)
      some { s with
             tasks := s.tasks.set i .finished,
             queue := s.queue ++ [descOf o m],
             produced := s.produced + 1, total := s.total + 1 }
  | _ => none

/-- The `client.Search.Repositories` call of discoverRepos returns
(src/unnamed/part_000 lines 93-99). -/
def stepFetchPage (s : St) (i : Nat) : Option St :=
  match s.tasks.get? i with
  | some (.paging o script count) =>
    match script with
    | [] =>
      -- the server no longer answers: transport error, log.Fatal(err)
      some { s with
             tasks := s.tasks.set i .finished, fatal := true,
             leaked := s.leaked + 1 }
    | .perr :: tl =>
      -- log.Fatal(err)
      some { s with
             tasks := s.tasks.set i .finished, fatal := true,
             leaked := s.leaked + 1 }
    | .page repos np :: rest =>
      -- count += len(...); wg.Add(len(...))
      some { s with
             tasks := s.tasks.set i
               (.emitting o repos rest (np != 0) (count + repos.length)),
             counter := s.counter + repos.length }
  | _ => none

/-- discoverRepos sends one discovered repository on the `dls` channel
(src/unnamed/part_000 lines 100-108). -/
def stepEmit (s : St) (i : Nat) : Option St :=
  match s.tasks.get? i with
  | some (.emitting o (m :: pend) script c count) =>
    -- out <- dl{...}
    some { s with
           tasks := s.tasks.set i (.emitting o pend script c count),
           queue := s.queue ++ [descOf o m], produced := s.produced + 1 }
  | _ => none

/-- discoverRepos finished a page and `resp.NextPage` was nonzero, so the
loop continues (src/unnamed/part_000 lines 109-113). -/
def stepNextPage (s : St) (i : Nat) : Option St :=
  match s.tasks.get? i with
  | some (.emitting o [] script true count) =>
    -- opt.Page = resp.NextPage; continue the loop
    some { s with tasks := s.tasks.set i (.paging o script count) }
  | _ => none

/-- discoverRepos finished its last page and returns (src/unnamed/part_000
lines 109-121). -/
def stepFinishOwner (s : St) (i : Nat) : Option St :=
  match s.tasks.get? i with
  | some (.emitting o [] script false count) =>
    -- msgs <- found-count message; atomic.AddUint64(&total, count); defer wg.Done()
    some { s with
           tasks := s.tasks.set i .finished,
           counter := s.counter - 1, total := s.total + count }
  | _ => none

/-- A consumeDls worker receives the next descriptor (src/dl.go lines
42-56). -/
def stepConsume (s : St) : Option St :=
  match s.queue with
  | [] => none
  | d :: rest =>
    if s.excluded.contains d.fullname then
      -- msgs <- skipped message; wg.Done()
      some { s with
             queue := rest, counter := s.counter - 1,
             recorded := s.recorded + 1 }
    else
      -- go download(base, dl, wg)
      some { s with queue := rest, inflight := s.inflight ++ [d] }

/-- A running download goroutine terminates (src/dl.go lines 58-98). -/
def stepFinishDl (s : St) (j : Nat) : Option St :=
  match s.inflight.get? j with
  | some d =>
    if d.cloneOk then
      -- msgs <- downloaded message; atomic.AddUint64(&successful, 1); defer wg.Done()
      some { s with
             inflight := s.inflight.eraseIdx j,
             counter := s.counter - 1, recorded := s.recorded + 1,
             successful := s.successful + 1 }
    else
      -- os.RemoveAll(...); msgs <- err; defer wg.Done()
      some { s with
             inflight := s.inflight.eraseIdx j,
             counter := s.counter - 1, recorded := s.recorded + 1 }
  | none => none

/-- Dispatcher of actions to their transitions. -/
def stepGo (s : St) : Act → Option St
  | .dispatch => stepDispatch s
  | .start i => stepStart s i
  | .fetchIndividual i => stepFetchIndividual s i
  | .fetchPageA i => stepFetchPage s i
  | .emit i => stepEmit s i
  | .nextPageA i => stepNextPage s i
  | .finishOwner i => stepFinishOwner s i
  | .consume => stepConsume s
  | .finishDl j => stepFinishDl s j

/-- One interleaving step.  Every transition is disabled once `fatal` is
set (the process has exited). -/
def step (s : St) (a : Act) : Option St :=
  if s.fatal then none else stepGo s a

/-- On a live state, `step` is the action dispatch. -/
theorem step_eq_go {s : St} (hf : s.fatal = false) (a : Act) : step s a = stepGo s a := by
  simp [step, hf]

/-- Initial state: main runs `wg.Add(flag.NArg())` before dispatching any
token (src/unnamed/part_002 line 163). -/
def initSt (args : List (String × TokenScript)) (excluded : List String) : St :=
  { args := args, tasks := [], queue := [], inflight := [],
    counter := args.length, produced := 0, recorded := 0, leaked := 0,
    fatal := false, total := 0, successful := 0, excluded := excluded }

/-- Run a list of scheduler actions from a state; `none` when some action
was not enabled. -/
def exec (s : St) : List Act → Option St
  | [] => some s
  | a :: as =>
    match step s a with
    | none => none
    | some s' => exec s' as

/-! ### Counting invariant of the transition system -/

/-- Outstanding WaitGroup units held on behalf of one task: its own unit
until the goroutine returns, plus one per repository of the current page
that has been `wg.Add`ed but not yet sent. -/
def phaseOb : Phase → Nat
  | .queued .. => 1
  | .fetchingRepo .. => 1
  | .paging .. => 1
  | .emitting _ pending _ _ _ => 1 + pending.length
  | .finished => 0

/-- Units some live party will still release: undispatched tokens, task
obligations, and one per descriptor in the channel or in a running
download. -/
def ob (s : St) : Nat :=
  s.args.length + (s.tasks.map phaseOb).sum + s.queue.length + s.inflight.length

/-- Counting invariant: the WaitGroup counter is exactly the live
obligations plus the leaked units, and every produced descriptor is
recorded, queued, or in flight. -/
def Inv (s : St) : Prop :=
  s.counter = ob s + s.leaked ∧
  s.produced = s.recorded + s.queue.length + s.inflight.length

/-- Sum of a mapped list after a positional update, stated without
truncated subtraction. -/
theorem sum_map_set {α : Type} (f : α → Nat) :
    ∀ (l : List α) (i : Nat) (x y : α), l.get? i = some y →
      (((l.set i x).map f).sum + f y = (l.map f).sum + f x)
  | [], i, _, _, h => by simp [List.get?] at h
  | a :: t, 0, x, y, h => by
    simp only [List.get?] at h
    cases h
    simp only [List.set_cons_zero, List.map_cons, List.sum_cons]
    omega
  | a :: t, i + 1, x, y, h => by
    simp only [List.get?] at h
    have ih := sum_map_set f t i x y h
    simp only [List.set_cons_succ, List.map_cons, List.sum_cons]
    omega

/-- Length after removing one existing position. -/
theorem length_eraseIdx_of_get? {α : Type} :
    ∀ (l : List α) (j : Nat) (y : α), l.get? j = some y →
      ((l.eraseIdx j).length + 1 = l.length)
  | [], j, _, h => by simp [List.get?] at h
  | a :: t, 0, y, h => by simp [List.eraseIdx]
  | a :: t, j + 1, y, h => by
    simp only [List.get?] at h
    have ih := length_eraseIdx_of_get? t j y h
    simp only [List.eraseIdx, List.length_cons]
    omega

/-- The counting invariant is preserved by every step. -/
theorem step_inv {s s' : St} {a : Act} (h : step s a = some s') (hi : Inv s) : Inv s' := by
  obtain ⟨h1, h2⟩ := hi
  simp only [ob] at h1
  by_cases hf : s.fatal
  · simp [step, hf] at h
  · rw [Bool.not_eq_true] at hf
    rw [step_eq_go hf] at h
    cases a with
    | dispatch =>
      simp only [stepGo] at h
      unfold stepDispatch at h
      split at h
      · cases h
      · rename_i arg sc rest heq
        split at h <;> rename_i hc <;> cases h <;>
          refine ⟨?_, ?_⟩ <;> simp_all [Inv, ob, phaseOb] <;> omega
    | start i =>
      simp only [stepGo] at h
      unfold stepStart at h
      split at h
      · rename_i q sc hg
        have hset := fun x => sum_map_set phaseOb s.tasks i x _ hg
        split at h
        · cases h
          have hx := hset Phase.finished
          simp only [phaseOb] at hx
          refine ⟨?_, ?_⟩ <;> simp_all [Inv, ob, phaseOb] <;> omega
        · split at h
          · rename_i o n
            cases h
            have hx := hset (Phase.fetchingRepo o n sc.fetchRepo)
            simp only [phaseOb] at hx
            refine ⟨?_, ?_⟩ <;> simp_all [Inv, ob, phaseOb] <;> omega
          · rename_i o
            cases h
            have hx := hset (Phase.paging o sc.pages 0)
            simp only [phaseOb] at hx
            refine ⟨?_, ?_⟩ <;> simp_all [Inv, ob, phaseOb] <;> omega
      · cases h
    | fetchIndividual i =>
      simp only [stepGo] at h
      unfold stepFetchIndividual at h
      split at h
      · rename_i o n res hg
        have hset := fun x => sum_map_set phaseOb s.tasks i x _ hg
        split at h
        · rename_i e
          cases h
          have hx := hset Phase.finished
          simp only [phaseOb] at hx
          refine ⟨?_, ?_⟩ <;> simp_all [Inv, ob, phaseOb] <;> omega
        · rename_i m
          cases h
          have hx := hset Phase.finished
          simp only [phaseOb] at hx
          refine ⟨?_, ?_⟩ <;> simp_all [Inv, ob, phaseOb] <;> omega
      · cases h
    | fetchPageA i =>
      simp only [stepGo] at h
      unfold stepFetchPage at h
      split at h
      · rename_i o script count hg
        have hset := fun x => sum_map_set phaseOb s.tasks i x _ hg
        split at h
        · cases h
          have hx := hset Phase.finished
          simp only [phaseOb] at hx
          refine ⟨?_, ?_⟩ <;> simp_all [Inv, ob, phaseOb] <;> omega
        · rename_i tl
          cases h
          have hx := hset Phase.finished
          simp only [phaseOb] at hx
          refine ⟨?_, ?_⟩ <;> simp_all [Inv, ob, phaseOb] <;> omega
        · rename_i repos np rest
          cases h
          have hx := hset (Phase.emitting o repos rest (np != 0) (count + repos.length))
          simp only [phaseOb] at hx
          refine ⟨?_, ?_⟩ <;> simp_all [Inv, ob, phaseOb] <;> omega
      · cases h
    | emit i =>
      simp only [stepGo] at h
      unfold stepEmit at h
      split at h
      · rename_i o m pend script c count hg
        cases h
        have hx := sum_map_set phaseOb s.tasks i (Phase.emitting o pend script c count) _ hg
        simp only [phaseOb] at hx
        refine ⟨?_, ?_⟩ <;> simp_all [Inv, ob, phaseOb] <;> omega
      · cases h
    | nextPageA i =>
      simp only [stepGo] at h
      unfold stepNextPage at h
      split at h
      · rename_i o script count hg
        cases h
        have hx := sum_map_set phaseOb s.tasks i (Phase.paging o script count) _ hg
        simp only [phaseOb] at hx
        refine ⟨?_, ?_⟩ <;> simp_all [Inv, ob, phaseOb] <;> omega
      · cases h
    | finishOwner i =>
      simp only [stepGo] at h
      unfold stepFinishOwner at h
      split at h
      · rename_i o script count hg
        cases h
        have hx := sum_map_set phaseOb s.tasks i Phase.finished _ hg
        simp only [phaseOb] at hx
        refine ⟨?_, ?_⟩ <;> simp_all [Inv, ob, phaseOb] <;> omega
      · cases h
    | consume =>
      simp only [stepGo] at h
      unfold stepConsume at h
      split at h
      · cases h
      · rename_i d rest heq
        split at h <;> rename_i hx <;> cases h <;>
          refine ⟨?_, ?_⟩ <;> simp_all [Inv, ob, phaseOb] <;> omega
    | finishDl j =>
      simp only [stepGo] at h
      unfold stepFinishDl at h
      split at h
      · rename_i d hg
        have hlen := length_eraseIdx_of_get? s.inflight j d hg
        split at h <;> rename_i hok <;> cases h <;>
          refine ⟨?_, ?_⟩ <;> simp_all [Inv, ob, phaseOb] <;> omega
      · cases h

/-- The counting invariant holds along every run. -/
theorem exec_inv {tr : List Act} : ∀ {s s' : St},
    exec s tr = some s' → Inv s → Inv s' := by
  induction tr with
  | nil => intro s s' h hi; simp [exec] at h; exact h ▸ hi
  | cons a as ih =>
    intro s s' h hi
    unfold exec at h
    cases hs : step s a with
    | none => rw [hs] at h; exact absurd h (by simp)
    | some s1 => rw [hs] at h; exact ih h (step_inv hs hi)

/-- The initial state satisfies the counting invariant. -/
theorem initSt_inv (args : List (String × TokenScript)) (excluded : List String) :
    Inv (initSt args excluded) := by
  constructor <;> simp [initSt, ob]


/-! ### Termination measure of the transition system -/

/-- Fuel carried by one scripted page. -/
def pageM : PageRes → Nat
  | .perr => 2
  | .page repos _ => 3 * repos.length + 2

/-- Fuel carried by a scripted page list. -/
def scriptM (l : List PageRes) : Nat := (l.map pageM).sum

/-- Fuel of a page list decomposes over cons. -/
theorem scriptM_cons (p : PageRes) (l : List PageRes) :
    scriptM (p :: l) = pageM p + scriptM l := by
  simp [scriptM]

/-- Fuel of one task. -/
def phaseM : Phase → Nat
  | .queued (.qrepo _ _) _ => 4
  | .queued (.quser _) sc => scriptM sc.pages + 4
  | .fetchingRepo _ _ _ => 3
  | .paging _ script _ => scriptM script + 2
  | .emitting _ pending script _ _ => 3 * pending.length + scriptM script + 3
  | .finished => 0

/-- Fuel of one undispatched argument. -/
def argM (p : String × TokenScript) : Nat :=
  match classify p.1 with
  | none => 1
  | some (.qrepo _ _) => 5
  | some (.quser _) => scriptM p.2.pages + 5

/-- Global fuel: every transition strictly decreases it, so every run is
finite. -/
def stateM (s : St) : Nat :=
  (s.args.map argM).sum + (s.tasks.map phaseM).sum + 2 * s.queue.length + s.inflight.length

/-- Every step strictly decreases the fuel. -/
theorem step_measure {s s' : St} {a : Act} (h : step s a = some s') :
    stateM s' < stateM s := by
  by_cases hf : s.fatal
  · simp [step, hf] at h
  · rw [Bool.not_eq_true] at hf
    rw [step_eq_go hf] at h
    cases a with
    | dispatch =>
      simp only [stepGo] at h
      unfold stepDispatch at h
      split at h
      · cases h
      · rename_i arg sc rest heq
        split at h
        · rename_i hc
          cases h
          simp_all [stateM, argM, hc]
        · rename_i q hc
          cases h
          cases q <;> simp_all [stateM, argM, phaseM, hc] <;> omega
    | start i =>
      simp only [stepGo] at h
      unfold stepStart at h
      split at h
      · rename_i q sc hg
        have hset := fun x => sum_map_set phaseM s.tasks i x _ hg
        split at h
        · cases h
          have hx := hset Phase.finished
          cases q <;> simp only [phaseM] at hx <;>
            simp_all [stateM] <;> omega
        · split at h
          · rename_i o n
            cases h
            have hx := hset (Phase.fetchingRepo o n sc.fetchRepo)
            simp only [phaseM] at hx
            simp_all [stateM] <;> omega
          · rename_i o
            cases h
            have hx := hset (Phase.paging o sc.pages 0)
            simp only [phaseM] at hx
            simp_all [stateM] <;> omega
      · cases h
    | fetchIndividual i =>
      simp only [stepGo] at h
      unfold stepFetchIndividual at h
      split at h
      · rename_i o n res hg
        have hset := fun x => sum_map_set phaseM s.tasks i x _ hg
        split at h
        · rename_i e
          cases h
          have hx := hset Phase.finished
          simp only [phaseM] at hx
          simp_all [stateM] <;> omega
        · rename_i m
          cases h
          have hx := hset Phase.finished
          simp only [phaseM] at hx
          simp_all [stateM] <;> omega
      · cases h
    | fetchPageA i =>
      simp only [stepGo] at h
      unfold stepFetchPage at h
      split at h
      · rename_i o script count hg
        have hset := fun x => sum_map_set phaseM s.tasks i x _ hg
        split at h
        · cases h
          have hx := hset Phase.finished
          simp only [phaseM] at hx
          simp_all [stateM] <;> omega
        · rename_i tl
          cases h
          have hx := hset Phase.finished
          simp only [phaseM, scriptM_cons, pageM] at hx
          simp_all [stateM] <;> omega
        · rename_i repos np rest
          cases h
          have hx := hset (Phase.emitting o repos rest (np != 0) (count + repos.length))
          simp only [phaseM, scriptM_cons, pageM] at hx
          simp_all [stateM] <;> omega
      · cases h
    | emit i =>
      simp only [stepGo] at h
      unfold stepEmit at h
      split at h
      · rename_i o m pend script c count hg
        cases h
        have hx := sum_map_set phaseM s.tasks i (Phase.emitting o pend script c count) _ hg
        simp only [phaseM] at hx
        simp_all [stateM] <;> omega
      · cases h
    | nextPageA i =>
      simp only [stepGo] at h
      unfold stepNextPage at h
      split at h
      · rename_i o script count hg
        cases h
        have hx := sum_map_set phaseM s.tasks i (Phase.paging o script count) _ hg
        simp only [phaseM] at hx
        simp_all [stateM] <;> omega
      · cases h
    | finishOwner i =>
      simp only [stepGo] at h
      unfold stepFinishOwner at h
      split at h
      · rename_i o script count hg
        cases h
        have hx := sum_map_set phaseM s.tasks i Phase.finished _ hg
        simp only [phaseM] at hx
        simp_all [stateM] <;> omega
      · cases h
    | consume =>
      simp only [stepGo] at h
      unfold stepConsume at h
      split at h
      · cases h
      · rename_i d rest heq
        split at h <;> rename_i hx <;> cases h <;>
          simp_all [stateM] <;> omega
    | finishDl j =>
      simp only [stepGo] at h
      unfold stepFinishDl at h
      split at h
      · rename_i d hg
        have hlen := length_eraseIdx_of_get? s.inflight j d hg
        split at h <;> rename_i hok <;> cases h <;>
          simp_all [stateM] <;> omega
      · cases h

/-- The length of every run is bounded by the initial fuel. -/
theorem exec_length {tr : List Act} : ∀ {s s' : St},
    exec s tr = some s' → tr.length + stateM s' ≤ stateM s := by
  induction tr with
  | nil =>
    intro s s' h
    simp [exec] at h
    simp [h]
  | cons a as ih =>
    intro s s' h
    unfold exec at h
    cases hs : step s a with
    | none => rw [hs] at h; cases h
    | some s1 =>
      rw [hs] at h
      have := ih h
      have := step_measure hs
      simp only [List.length_cons]
      omega

/-! ### Stuck states -/

/-- After `log.Fatal` nothing moves. -/
theorem no_step_of_fatal {s : St} (hf : s.fatal = true) : ∀ a, step s a = none := by
  intro a
  simp [step, hf]

/-- A live state with no work left has no enabled action. -/
theorem no_step_of_quiescent {s : St} (hq : s.args = [])
    (ht : ∀ ph ∈ s.tasks, ph = Phase.finished) (hqu : s.queue = [])
    (hin : s.inflight = []) : ∀ a, step s a = none := by
  intro a
  by_cases hf : s.fatal
  · simp [step, hf]
  · rw [Bool.not_eq_true] at hf
    rw [step_eq_go hf]
    have hget : ∀ i, s.tasks.get? i = none ∨ s.tasks.get? i = some Phase.finished := by
      intro i
      cases hg : s.tasks.get? i with
      | none => exact Or.inl rfl
      | some ph => exact Or.inr (by rw [ht ph (List.get?_mem hg)])
    cases a with
    | dispatch => simp only [stepGo, stepDispatch, hq]
    | start i =>
      simp only [stepGo]
      rcases hget i with hg | hg <;> simp only [stepStart, hg]
    | fetchIndividual i =>
      simp only [stepGo]
      rcases hget i with hg | hg <;> simp only [stepFetchIndividual, hg]
    | fetchPageA i =>
      simp only [stepGo]
      rcases hget i with hg | hg <;> simp only [stepFetchPage, hg]
    | emit i =>
      simp only [stepGo]
      rcases hget i with hg | hg <;> simp only [stepEmit, hg]
    | nextPageA i =>
      simp only [stepGo]
      rcases hget i with hg | hg <;> simp only [stepNextPage, hg]
    | finishOwner i =>
      simp only [stepGo]
      rcases hget i with hg | hg <;> simp only [stepFinishOwner, hg]
    | consume => simp only [stepGo, stepConsume, hqu]
    | finishDl j =>
      have hj : s.inflight.get? j = none := by rw [hin]; rfl
      simp only [stepGo, stepFinishDl, hj]

/-- Progress: a live state in which no action is enabled has no work
left. -/
theorem quiescent_of_no_step {s : St} (hf : s.fatal = false)
    (hstuck : ∀ a, step s a = none) :
    s.args = [] ∧ (∀ ph ∈ s.tasks, ph = Phase.finished) ∧ s.queue = [] ∧
      s.inflight = [] := by
  refine ⟨?_, ?_, ?_, ?_⟩
  · cases hq : s.args with
    | nil => rfl
    | cons p rest =>
      have hh := hstuck .dispatch
      rw [step_eq_go hf] at hh
      simp only [stepGo] at hh
      obtain ⟨arg, sc⟩ := p
      simp only [stepDispatch, hq] at hh
      cases hc : classify arg <;> rw [hc] at hh <;> cases hh
  · intro ph hph
    obtain ⟨i, hi⟩ := List.mem_iff_get?.mp hph
    cases ph with
    | queued q sc =>
      have hh := hstuck (.start i)
      rw [step_eq_go hf] at hh
      simp only [stepGo, stepStart, hi] at hh
      by_cases hmk : sc.mkdirOk <;> cases q <;> simp [hmk] at hh
    | fetchingRepo o n res =>
      have hh := hstuck (.fetchIndividual i)
      rw [step_eq_go hf] at hh
      cases res <;> simp only [stepGo, stepFetchIndividual, hi] at hh <;> cases hh
    | paging o script count =>
      have hh := hstuck (.fetchPageA i)
      rw [step_eq_go hf] at hh
      cases script with
      | nil => simp only [stepGo, stepFetchPage, hi] at hh; cases hh
      | cons pg rest =>
        cases pg <;> simp only [stepGo, stepFetchPage, hi] at hh <;> cases hh
    | emitting o pending script c count =>
      cases pending with
      | cons m pend =>
        have hh := hstuck (.emit i)
        rw [step_eq_go hf] at hh
        simp only [stepGo, stepEmit, hi] at hh
        cases hh
      | nil =>
        cases c with
        | true =>
          have hh := hstuck (.nextPageA i)
          rw [step_eq_go hf] at hh
          simp only [stepGo, stepNextPage, hi] at hh
          cases hh
        | false =>
          have hh := hstuck (.finishOwner i)
          rw [step_eq_go hf] at hh
          simp only [stepGo, stepFinishOwner, hi] at hh
          cases hh
    | finished => rfl
  · cases hq : s.queue with
    | nil => rfl
    | cons d rest =>
      have hh := hstuck .consume
      rw [step_eq_go hf] at hh
      simp only [stepGo, stepConsume, hq] at hh
      by_cases hx : d.fullname ∈ s.excluded <;> simp [hx] at hh
  · cases hq : s.inflight with
    | nil => rfl
    | cons d rest =>
      have hh := hstuck (.finishDl 0)
      rw [step_eq_go hf] at hh
      have h0 : s.inflight.get? 0 = some d := by rw [hq]; rfl
      simp only [stepGo, stepFinishDl, h0] at hh
      by_cases hok : d.cloneOk <;> simp [hok] at hh

/-- Only finished tasks hold no obligation. -/
theorem phaseOb_eq_zero {ph : Phase} (h : phaseOb ph = 0) : ph = Phase.finished := by
  cases ph <;> simp [phaseOb] at h <;> rfl

/-- A zero obligation sum means every task is finished. -/
theorem all_finished_of_sum_zero :
    ∀ {l : List Phase}, (l.map phaseOb).sum = 0 → ∀ ph ∈ l, ph = Phase.finished := by
  intro l
  induction l with
  | nil => intro _ ph hph; cases hph
  | cons p t ih =>
    intro h ph hph
    simp only [List.map_cons, List.sum_cons] at h
    rcases List.mem_cons.mp hph with rfl | hm
    · exact phaseOb_eq_zero (by omega)
    · exact ih (by omega) ph hm

/-- When the counter is zero, nothing is outstanding: no argument, no
unfinished task, no queued or running descriptor, no leaked unit, and
every produced descriptor is recorded. -/
theorem counter_zero_quiescent {s : St} (hi : Inv s) (hz : s.counter = 0) :
    s.args = [] ∧ (∀ ph ∈ s.tasks, ph = Phase.finished) ∧ s.queue = [] ∧
      s.inflight = [] ∧ s.leaked = 0 ∧ s.produced = s.recorded := by
  obtain ⟨h1, h2⟩ := hi
  simp only [ob] at h1
  rw [hz] at h1
  have hargs : s.args = [] := List.length_eq_zero.mp (by omega)
  have hq : s.queue = [] := List.length_eq_zero.mp (by omega)
  have hin : s.inflight = [] := List.length_eq_zero.mp (by omega)
  refine ⟨hargs, all_finished_of_sum_zero (by omega), hq, hin, by omega, ?_⟩
  rw [h2, hq, hin]
  simp

/-- When the counter is zero, no action is enabled any more. -/
theorem counter_zero_stuck {s : St} (hi : Inv s) (hz : s.counter = 0) :
    ∀ a, step s a = none := by
  obtain ⟨hargs, ht, hq, hin, _, _⟩ := counter_zero_quiescent hi hz
  by_cases hf : s.fatal
  · exact no_step_of_fatal hf
  · exact no_step_of_quiescent hargs ht hq hin

/-! ### Error-free runs -/

/-- A scripted page list is completed without error: no transport error
occurs and some page declares `NextPage == 0` before the script runs
out. -/
def pagesOk : List PageRes → Bool
  | [] => false
  | .perr :: _ => false
  | .page _ 0 :: _ => true
  | .page _ (_ + 1) :: rest => pagesOk rest

/-- A token script that discovery can process without any error. -/
def scOkB (sc : TokenScript) : Bool :=
  (match sc.fetchRepo with
   | .ok _ => true
   | .error _ => false) && pagesOk sc.pages

/-- Phase-local part of the error-free invariant. -/
def phaseOkB : Phase → Bool
  | .queued _ sc => scOkB sc
  | .fetchingRepo _ _ res =>
    match res with
    | .ok _ => true
    | .error _ => false
  | .paging _ script _ => pagesOk script
  | .emitting _ _ script c _ => !c || pagesOk script
  | .finished => true

/-- Error-free invariant: the process has not exited, no unit leaked, and
every pending script can still be processed without error. -/
def ErrFree (s : St) : Prop :=
  s.fatal = false ∧ s.leaked = 0 ∧ (∀ p ∈ s.args, scOkB p.2 = true) ∧
    (∀ ph ∈ s.tasks, phaseOkB ph = true)

/-- The error-free invariant is preserved by every step. -/
theorem step_errFree {s s' : St} {a : Act} (h : step s a = some s')
    (he : ErrFree s) : ErrFree s' := by
  obtain ⟨hf, hl, hargs, htasks⟩ := he
  rw [step_eq_go hf] at h
  cases a with
  | dispatch =>
    simp only [stepGo] at h
    unfold stepDispatch at h
    split at h
    · cases h
    · rename_i arg sc rest heq
      have hhead : scOkB sc = true := hargs (arg, sc) (by rw [heq]; exact List.mem_cons_self _ _)
      have htail : ∀ p ∈ rest, scOkB p.2 = true := by
        intro p hp
        exact hargs p (by rw [heq]; exact List.mem_cons_of_mem _ hp)
      split at h <;> rename_i hc <;> cases h
      · exact ⟨hf, hl, htail, htasks⟩
      · refine ⟨hf, hl, htail, ?_⟩
        intro ph hph
        rcases List.mem_append.mp hph with hm | hm
        · exact htasks ph hm
        · simp only [List.mem_singleton] at hm
          subst hm
          simpa [phaseOkB] using hhead
  | start i =>
    simp only [stepGo] at h
    unfold stepStart at h
    split at h
    · rename_i q sc hg
      have hq : phaseOkB (Phase.queued q sc) = true := htasks _ (List.get?_mem hg)
      simp only [phaseOkB, scOkB, Bool.and_eq_true] at hq
      have hmem : ∀ x, phaseOkB x = true → ∀ ph ∈ s.tasks.set i x, phaseOkB ph = true := by
        intro x hx ph hph
        rcases List.mem_or_eq_of_mem_set hph with hm | rfl
        · exact htasks ph hm
        · exact hx
      split at h
      · cases h
        exact ⟨hf, hl, hargs, hmem _ rfl⟩
      · split at h
        · rename_i o n
          cases h
          refine ⟨hf, hl, hargs, hmem _ ?_⟩
          simp only [phaseOkB]
          rcases hfr : sc.fetchRepo with e | m
          · rw [hfr] at hq; simp at hq
          · rfl
        · rename_i o
          cases h
          exact ⟨hf, hl, hargs, hmem _ (by simp only [phaseOkB]; exact hq.2)⟩
    · cases h
  | fetchIndividual i =>
    simp only [stepGo] at h
    unfold stepFetchIndividual at h
    split at h
    · rename_i o n res hg
      have hq : phaseOkB (Phase.fetchingRepo o n res) = true := htasks _ (List.get?_mem hg)
      split at h
      · rename_i e
        simp [phaseOkB] at hq
      · rename_i m
        cases h
        refine ⟨hf, hl, hargs, ?_⟩
        intro ph hph
        rcases List.mem_or_eq_of_mem_set hph with hm | rfl
        · exact htasks ph hm
        · rfl
    · cases h
  | fetchPageA i =>
    simp only [stepGo] at h
    unfold stepFetchPage at h
    split at h
    · rename_i o script count hg
      have hq : phaseOkB (Phase.paging o script count) = true := htasks _ (List.get?_mem hg)
      simp only [phaseOkB] at hq
      split at h
      · simp [pagesOk] at hq
      · rename_i tl
        simp [pagesOk] at hq
      · rename_i repos np rest
        cases h
        refine ⟨hf, hl, hargs, ?_⟩
        intro ph hph
        rcases List.mem_or_eq_of_mem_set hph with hm | rfl
        · exact htasks ph hm
        · simp only [phaseOkB]
          cases np with
          | zero => simp
          | succ k =>
            simp only [pagesOk] at hq
            simp [hq]
    · cases h
  | emit i =>
    simp only [stepGo] at h
    unfold stepEmit at h
    split at h
    · rename_i o m pend script c count hg
      have hq : phaseOkB (Phase.emitting o (m :: pend) script c count) = true :=
        htasks _ (List.get?_mem hg)
      cases h
      refine ⟨hf, hl, hargs, ?_⟩
      intro ph hph
      rcases List.mem_or_eq_of_mem_set hph with hm | rfl
      · exact htasks ph hm
      · simpa [phaseOkB] using hq
    · cases h
  | nextPageA i =>
    simp only [stepGo] at h
    unfold stepNextPage at h
    split at h
    · rename_i o script count hg
      have hq : phaseOkB (Phase.emitting o [] script true count) = true :=
        htasks _ (List.get?_mem hg)
      cases h
      refine ⟨hf, hl, hargs, ?_⟩
      intro ph hph
      rcases List.mem_or_eq_of_mem_set hph with hm | rfl
      · exact htasks ph hm
      · simpa [phaseOkB] using hq
    · cases h
  | finishOwner i =>
    simp only [stepGo] at h
    unfold stepFinishOwner at h
    split at h
    · rename_i o script count hg
      cases h
      refine ⟨hf, hl, hargs, ?_⟩
      intro ph hph
      rcases List.mem_or_eq_of_mem_set hph with hm | rfl
      · exact htasks ph hm
      · rfl
    · cases h
  | consume =>
    simp only [stepGo] at h
    unfold stepConsume at h
    split at h
    · cases h
    · rename_i d rest heq
      split at h <;> cases h <;> exact ⟨hf, hl, hargs, htasks⟩
  | finishDl j =>
    simp only [stepGo] at h
    unfold stepFinishDl at h
    split at h
    · rename_i d hg
      split at h <;> cases h <;> exact ⟨hf, hl, hargs, htasks⟩
    · cases h

/-- The error-free invariant holds along every run. -/
theorem exec_errFree {tr : List Act} : ∀ {s s' : St},
    exec s tr = some s' → ErrFree s → ErrFree s' := by
  induction tr with
  | nil =>
    intro s s' h he
    simp [exec] at h
    exact h ▸ he
  | cons a as ih =>
    intro s s' h he
    unfold exec at h
    cases hs : step s a with
    | none => rw [hs] at h; cases h
    | some s1 => rw [hs] at h; exact ih h (step_errFree hs he)

/-- Error-free configurations yield error-free initial states. -/
theorem initSt_errFree (args : List (String × TokenScript)) (excluded : List String)
    (hcfg : ∀ p ∈ args, scOkB p.2 = true) : ErrFree (initSt args excluded) := by
  refine ⟨rfl, rfl, hcfg, ?_⟩
  intro ph hph
  cases hph

/-- In an error-free run a stuck state has counter zero. -/
theorem errFree_stuck_counter_zero {s : St} (hi : Inv s) (he : ErrFree s)
    (hstuck : ∀ a, step s a = none) : s.counter = 0 := by
  obtain ⟨hf, hl, _, _⟩ := he
  obtain ⟨hargs, ht, hq, hin⟩ := quiescent_of_no_step hf hstuck
  obtain ⟨h1, _⟩ := hi
  simp only [ob] at h1
  have hsum : (s.tasks.map phaseOb).sum = 0 := by
    have : ∀ x ∈ s.tasks.map phaseOb, x = 0 := by
      intro x hx
      obtain ⟨ph, hph, rfl⟩ := List.mem_map.mp hx
      rw [ht ph hph]
      rfl
    exact List.sum_eq_zero this
  rw [h1, hargs, hq, hin, hsum, hl]
  simp



/-! ### Supporting lemmas for the claims -/

/-- Number of page requests a discovery result records. -/
def fetchesOf : DiscResult → Nat
  | .ok _ _ f => f
  | .err _ _ f => f

/-- The page loop issues at most one request per scripted page plus one:
the request count never exceeds the fuel left in the script. -/
theorem queryPages_fetches (script : List (Option PageResp)) (page pages : Int)
    (count : Nat) (emitted : List RepoJ) (f : Nat) (hpage : 1 ≤ page) :
    fetchesOf (queryPages script page pages count emitted f) ≤
      f + 1 + (script.length - (page - 1).toNat) := by
  rw [queryPages]
  split
  · split
    · simp [fetchesOf]
    · rename_i repos pages2 heq
      by_cases hz : repos.length = 0
      · simp [hz, fetchesOf]
      · have hlt : (page - 1).toNat < script.length := by
          by_contra hge
          push_neg at hge
          have hnone : fetchPage script page = none := by
            unfold fetchPage
            exact List.getD_eq_default _ _ (by omega)
          rw [hnone] at heq
          simp [requestRepos] at heq
        have ih := queryPages_fetches script (page + 1) pages2 (count + repos.length)
          (emitted ++ repos) (f + 1) (by omega)
        simp only [hz, if_false]
        omega
  · simp [fetchesOf]
    omega
termination_by (Int.toNat (script.length + 2 - page))
decreasing_by
  omega

/-- Position of the descriptor a consumeDls event belongs to. -/
def eventIdx : DlEvent → Nat
  | .skipped i _ => i
  | .cloneLaunched i _ => i

/-- Events are positionally aligned with the received descriptors. -/
theorem consumeDlsAux_get? (excluded : List String) :
    ∀ (ins : List Desc) (k j : Nat),
      (consumeDlsAux excluded k ins).get? j =
        (ins.get? j).map (fun d =>
          if excluded.contains d.fullname then DlEvent.skipped (k + j) d.fullname
          else DlEvent.cloneLaunched (k + j) d)
  | [], k, j => by simp [consumeDlsAux, List.get?]
  | d :: rest, k, 0 => by
    by_cases hx : d.fullname ∈ excluded <;>
      simp [consumeDlsAux, hx, List.get?]
  | d :: rest, k, j + 1 => by
    have ih := consumeDlsAux_get? excluded rest (k + 1) j
    by_cases hx : d.fullname ∈ excluded <;>
      simp [consumeDlsAux, hx, List.get?] <;>
      (rw [show k + (j + 1) = k + 1 + j from by omega]; simpa using ih)

/-- Characters untouched by the separator never change under toSlashL. -/
theorem toSlashL_sepFree {sep : Char} : ∀ {n : List Char},
    sepFree sep n = true → toSlashL sep n = n := by
  intro n
  induction n with
  | nil => intro _; rfl
  | cons c cs ih =>
    intro h
    simp only [sepFree, List.contains_cons, Bool.not_or] at h
    simp only [Bool.and_eq_true, Bool.not_eq_true'] at h
    obtain ⟨h1, h2⟩ := h
    have hc : c ≠ sep := by
      intro hcc
      subst hcc
      simp at h1
    simp only [toSlashL, List.map_cons, if_neg hc]
    have := ih (by simp only [sepFree, h2, Bool.not_false])
    simp only [toSlashL] at this
    rw [this]

/-- joinSep then toSlashL is joinSep with forward slashes, for
separator-free components. -/
theorem toSlashL_joinSep {sep : Char} : ∀ {r : List (List Char)},
    (∀ c ∈ r, sepFree sep c = true) →
    toSlashL sep (joinSep sep r) = joinSep '/' r
  | [], _ => rfl
  | [c], h => by
    simp only [joinSep]
    exact toSlashL_sepFree (h c (by simp))
  | c :: c2 :: cs, h => by
    have hc : sepFree sep c = true := h c (by simp)
    have htl : ∀ x ∈ c2 :: cs, sepFree sep x = true := by
      intro x hx
      exact h x (List.mem_cons_of_mem _ hx)
    have ih := toSlashL_joinSep htl
    simp only [joinSep, toSlashL, List.map_append, List.map_cons]
    simp only [toSlashL] at ih
    rw [ih]
    have hcc := toSlashL_sepFree hc
    simp only [toSlashL] at hcc
    rw [hcc]
    simp

mutual

/-- The names walked under a node are the node's entry paths joined with
forward slashes, relative to the working root, for every host
separator. -/
theorem walkNames_spec (sep : Char) (pre : List (List Char)) (node : FsNode)
    (hpre : ∀ c ∈ pre, sepFree sep c = true) (hn : goodTree sep node = true) :
    walkNames sep (pre ++ [nodeName node]) node =
      (entryPaths node).map (fun p => joinSep '/' (pre ++ p)) := by
  cases node with
  | file n =>
    simp only [goodTree] at hn
    simp only [walkNames, entryPaths, nodeName, List.map_cons, List.map_nil]
    rw [toSlashL_joinSep]
    intro c hc
    rcases List.mem_append.mp hc with hm | hm
    · exact hpre c hm
    · simp only [List.mem_singleton] at hm
      subst hm
      exact hn
  | dir n cs =>
    simp only [goodTree, Bool.and_eq_true] at hn
    obtain ⟨hn1, hn2⟩ := hn
    have hpre2 : ∀ c ∈ pre ++ [n], sepFree sep c = true := by
      intro c hc
      rcases List.mem_append.mp hc with hm | hm
      · exact hpre c hm
      · simp only [List.mem_singleton] at hm
        subst hm
        exact hn1
    simp only [walkNames, entryPaths, nodeName, List.map_cons]
    congr 1
    · rw [toSlashL_joinSep hpre2]
    · rw [walkChildren_spec sep (pre ++ [n]) cs hpre2 hn2]
      rw [List.map_map]
      apply List.map_congr_left
      intro p _
      simp

/-- Walking a list of siblings lists each subtree's entry paths in
order. -/
theorem walkChildren_spec (sep : Char) (pre : List (List Char)) (cs : List FsNode)
    (hpre : ∀ c ∈ pre, sepFree sep c = true) (hcs : goodTreeList sep cs = true) :
    walkChildren sep pre cs = (entryPathsList cs).map (fun p => joinSep '/' (pre ++ p)) := by
  cases cs with
  | nil => rfl
  | cons c rest =>
    simp only [goodTreeList, Bool.and_eq_true] at hcs
    obtain ⟨hc, hrest⟩ := hcs
    simp only [walkChildren, entryPathsList, List.map_append]
    rw [walkNames_spec sep pre c hpre hc, walkChildren_spec sep pre rest hpre hrest]

end



/-! ### Concrete scenario data -/

/-- Repository metadata for concrete scenarios. -/
def rmeta (fn : String) (ok : Bool) : RepoMeta :=
  { git := "git://github.com/" ++ fn ++ ".git", ssh := "git@github.com:" ++ fn ++ ".git",
    fullname := fn, priv := false, cloneOk := ok }

/-- Script of the owner token "alice": one listing page with two
repositories and no next page. -/
def scAlice : TokenScript :=
  { mkdirOk := true, fetchRepo := .ok (rmeta "alice/zzz" true),
    pages := [.page [rmeta "alice/r1" true, rmeta "alice/r2" true] 0] }

/-- Script of the individual-repository token "bob/repo1". -/
def scBob : TokenScript :=
  { mkdirOk := true, fetchRepo := .ok (rmeta "bob/repo1" true), pages := [.page [] 0] }

/-- Input of the spec's two-token scenario. -/
def c1Args : List (String × TokenScript) := [("alice", scAlice), ("bob/repo1", scBob)]

/-- One complete interleaving of the two-token scenario. -/
def c1Trace : List Act :=
  [.dispatch, .dispatch, .start 0, .start 1, .fetchPageA 0, .emit 0, .emit 0,
   .fetchIndividual 1, .finishOwner 0, .consume, .consume, .consume,
   .finishDl 0, .finishDl 0, .finishDl 0]

/-- Final state of that interleaving. -/
def c1Final : St := (exec (initSt c1Args []) c1Trace).getD (initSt [] [])

/-- Script of an individual-repository token whose fetch fails with a
network error. -/
def scErrRepo : TokenScript :=
  { mkdirOk := true, fetchRepo := .error (), pages := [] }

/-- Input with one valid individual-repository token whose fetch errors. -/
def cexArgs : List (String × TokenScript) := [("a/b", scErrRepo)]

/-- The complete run of that input: dispatch, start, failing fetch. -/
def cexTrace : List Act := [.dispatch, .start 0, .fetchIndividual 0]

/-- Final state of that run: one unit is still outstanding although
nothing can ever release it. -/
def cexFinal : St := (exec (initSt cexArgs []) cexTrace).getD (initSt [] [])

/-- Script of an owner token whose first listing request fails. -/
def scErrUser : TokenScript :=
  { mkdirOk := true, fetchRepo := .ok (rmeta "x/x" true), pages := [.perr] }

/-- Input with a failing owner discovery followed by a healthy sibling. -/
def c2Args : List (String × TokenScript) := [("alice", scErrUser), ("bob", scBob)]

/-- Run until the failing listing request returns. -/
def c2Trace : List Act := [.dispatch, .dispatch, .start 0, .fetchPageA 0]

/-- Final state: the process has exited via log.Fatal. -/
def c2Final : St := (exec (initSt c2Args []) c2Trace).getD (initSt [] [])

/-- Rate-limited response headers carrying an explicit server reset
time. -/
def c3Hdrs : List (String × String) :=
  [("X-RateLimit-Remaining", "0"), ("X-RateLimit-Reset", "1700000000")]

/-- Headers of a response with quota left. -/
def c3OkHdrs : List (String × String) := [("X-RateLimit-Remaining", "57")]

/-- Listing script whose first page is rate limited. -/
def c3Script : List (Option PageResp) := [some { hdrs := c3Hdrs, body := some [] }]

/-- A Link header consisting of a single rel="last" element. -/
def c4SingleLast : String := "<https://api.github.com/users/x/repos?page=2>; rel=\"last\""

/-- A Link header whose trailing-boundary element carries page number
25. -/
def c4TwoElems : String :=
  "<https://h/r?page=2&x=y>; rel=\"next\", <https://h/r?page=25>; rel=\"last\""

/-- Response without any Link header. -/
def c4RespNoLink : PageResp :=
  { hdrs := [("X-RateLimit-Remaining", "57")], body := some [{ name := "x/r1", gitURL := "g" }] }

/-- The hundred repositories of the pagination scenario. -/
def c5Repos : List RepoJ :=
  (List.range 100).map (fun i =>
    { name := "x/r" ++ toString i, gitURL := "git://github.com/x/r" ++ toString i ++ ".git" })

/-- A Link header the source parses as a trailing boundary of 2 pages. -/
def c5Link : String :=
  "<https://api.github.com/users/x/repos?page=2&page_size=100>; rel=\"next\", <https://api.github.com/users/x/repos?page=2&page_size=100>; rel=\"last\""

/-- Page 1 of the pagination scenario: 100 repositories, boundary link. -/
def c5Page1 : PageResp :=
  { hdrs := [("X-RateLimit-Remaining", "57"), ("Link", c5Link)], body := some c5Repos }

/-- Page 2 of the pagination scenario: zero repositories. -/
def c5Page2 : PageResp :=
  { hdrs := [("X-RateLimit-Remaining", "56")], body := some [] }

/-- The pagination scenario script. -/
def c5Script : List (Option PageResp) := [some c5Page1, some c5Page2]

/-- Two descriptors for the exclusion scenario; the second is excluded. -/
def c7Ins : List Desc :=
  [descOf "alice" (rmeta "alice/r1" true), descOf "skip" (rmeta "skip/me" true)]

/-- Owner subtree for the archiving scenario. -/
def c9Tree : FsNode :=
  .dir "alice".toList
    [.dir "r1".toList [.file "README".toList], .file "stray".toList]

/-! ### The claims -/

/-- C1 (amended): in every run over a configuration whose discovery
scripts are error-free, the outstanding-work counter is zero exactly at
the maximal states: when it reaches zero no action (in particular no
descriptor production) is possible any more and every produced descriptor
has its terminal outcome recorded; conversely every stuck state has
counter zero; and every run is finite, of length at most the initial
fuel.  Together these give: the counter reaches zero exactly once,
strictly after every produced descriptor was recorded, and nothing runs
afterwards. -/
theorem C1_counter_barrier (args : List (String × TokenScript)) (excl : List String)
    (tr : List Act) (s : St)
    (hfree : ∀ p ∈ args, scOkB p.2 = true)
    (hex : exec (initSt args excl) tr = some s) :
    (s.counter = 0 → (∀ a, step s a = none) ∧ s.produced = s.recorded)
    ∧ ((∀ a, step s a = none) → s.counter = 0)
    ∧ tr.length ≤ stateM (initSt args excl) := by
  have hi : Inv s := exec_inv hex (initSt_inv args excl)
  have he : ErrFree s := exec_errFree hex (initSt_errFree args excl hfree)
  refine ⟨?_, ?_, ?_⟩
  · intro hz
    exact ⟨counter_zero_stuck hi hz, (counter_zero_quiescent hi hz).2.2.2.2.2⟩
  · intro hstuck
    exact errFree_stuck_counter_zero hi he hstuck
  · have := exec_length hex
    omega

/-- C1 witness: the spec's scenario (tokens "alice" and "bob/repo1",
two listed repositories, all clones succeeding) run to completion. -/
theorem C1_counter_barrier_witness :
    (c1Final.counter = 0 → (∀ a, step c1Final a = none) ∧ c1Final.produced = c1Final.recorded)
    ∧ ((∀ a, step c1Final a = none) → c1Final.counter = 0)
    ∧ c1Trace.length ≤ stateM (initSt c1Args []) :=
  C1_counter_barrier c1Args [] c1Trace c1Final (by decide) (by rfl)

/-- C1 as stated: in every maximal run over valid name tokens the
outstanding-work counter reaches zero. -/
def C1ClaimStatement : Prop :=
  ∀ (args : List (String × TokenScript)) (excl : List String) (tr : List Act) (s : St),
    (∀ p ∈ args, (classify p.1).isSome) → args ≠ [] →
    exec (initSt args excl) tr = some s →
    (∀ a, step s a = none) →
    s.counter = 0

/-- C1 counterexample: with the single valid token "a/b" whose individual
fetch fails, the run completes (nothing is enabled any more) with the
counter stuck at 1 — queryOwner's error path returns without wg.Done, so
the counter never reaches zero. -/
theorem C1_claim_as_stated_false : ¬ C1ClaimStatement := by
  intro hcl
  have hstuck : ∀ a, step cexFinal a = none := by
    apply no_step_of_quiescent (by rfl) ?_ (by rfl) (by rfl)
    intro ph hph
    have : cexFinal.tasks = [Phase.finished] := by rfl
    rw [this] at hph
    simpa using hph
  have hz := hcl cexArgs [] cexTrace cexFinal (by decide) (by decide) (by rfl) hstuck
  have : cexFinal.counter = 1 := by rfl
  omega

/-- C2: a network error during one owner's discovery is not local: the
discovery worker calls log.Fatal, which exits the whole process.  In the
model the failing listing request of "alice" leaves the run in a fatal
state where no action is enabled any more, the sibling token "bob" is
still queued and never runs, and the two outstanding units are never
released. -/
theorem C2_discovery_error_fatal :
    exec (initSt c2Args []) c2Trace = some c2Final
    ∧ c2Final.fatal = true
    ∧ c2Final.counter = 2
    ∧ c2Final.tasks.get? 1 = some (Phase.queued (QueryKind.quser "bob") scBob)
    ∧ (∀ a, step c2Final a = none) :=
  ⟨by rfl, by rfl, by rfl, by rfl, no_step_of_fatal (by rfl)⟩

/-- C3: the rate-limit check fails exactly on a zero remaining-quota
header, and the error aborts the whole owner's discovery after the one
request, without retry; but the reset time it reports is the parse of the
X-RateLimit-Remaining header itself (always 0, the Unix epoch), not the
server's X-RateLimit-Reset value 1700000000. -/
theorem C3_rate_limit_reset_misparsed :
    checkRateLimit c3OkHdrs = none
    ∧ checkRateLimit c3Hdrs = some (.exceededReset 0)
    ∧ hGet c3Hdrs "X-RateLimit-Reset" = "1700000000"
    ∧ parseIntGo (hGet c3Hdrs "X-RateLimit-Reset") = some 1700000000
    ∧ discoverRepos c3Script = .err (.rateLimit (.exceededReset 0)) [] 1 := by
  refine ⟨by rfl, by rfl, by rfl, by rfl, ?_⟩
  unfold discoverRepos
  conv_lhs => rw [queryPages]
  rfl

/-- C4: the Link-header scan never examines the first element, so a
header consisting only of a rel="last" element yields no page count; and
the element parser drops the last character of the link target, so a
boundary link carrying page number 25 is parsed as page count 2.  When no
boundary is found the page count is left unchanged. -/
theorem C4_page_count_misparsed :
    checkPageCount c4SingleLast = -1
    ∧ checkPageCount c4TwoElems = 2
    ∧ pageCount c4SingleLast = (0, false)
    ∧ pageCount c4TwoElems = (2, true)
    ∧ checkPageCount (hGet c4RespNoLink.hdrs "Link") = -1
    ∧ requestRepos (some c4RespNoLink) 7 = .ok ([{ name := "x/r1", gitURL := "g" }], 7) :=
  ⟨by rfl, by rfl, by rfl, by rfl, by rfl, by rfl⟩

set_option maxRecDepth 8000 in
/-- C5: discovery always terminates — the page loop issues at most one
request per scripted page plus one — and on the spec's scenario (100
repositories on page 1 with a boundary link the source reads as 2 pages,
an empty page 2) it stops after exactly 2 requests with 100 repositories
discovered and emitted. -/
theorem C5_pagination_terminates :
    (∀ script : List (Option PageResp), fetchesOf (discoverRepos script) ≤ script.length + 1)
    ∧ discoverRepos c5Script = .ok 100 c5Repos 2 := by
  constructor
  · intro script
    have h := queryPages_fetches script 1 1 0 [] 0 (by norm_num)
    unfold discoverRepos
    omega
  · unfold discoverRepos
    have h1 : queryPages c5Script 1 1 0 [] 0 = queryPages c5Script 2 2 100 c5Repos 1 := by
      conv_lhs => rw [queryPages]
      rfl
    have h2 : queryPages c5Script 2 2 100 c5Repos 1 = .ok 100 c5Repos 2 := by
      conv_lhs => rw [queryPages]
      rfl
    exact h1.trans h2

/-- C5 witness: the request bound evaluated on the scenario script. -/
theorem C5_pagination_terminates_witness :
    fetchesOf (discoverRepos c5Script) ≤ c5Script.length + 1 :=
  C5_pagination_terminates.1 c5Script

/-- C6: with a nonzero timeout, a clone that hangs or takes longer than
the deadline yields the distinct timeout failure kind with the partial
directory removed; a zero timeout installs no deadline at all, so the
outcome depends only on the clone itself and a hanging clone is never
cancelled. -/
theorem C6_clone_timeout (timeout : Nat) (cb : CloneBehavior) :
    (timeout ≠ 0 →
      (cb = .hangs ∨ ∃ t ok, cb = .finishes t ok ∧ timeout < t) →
      download timeout cb = .failure true true)
    ∧ (∀ t ok, download 0 (.finishes t ok) = if ok then .success else .failure false true)
    ∧ download 0 .hangs = .neverReturns := by
  refine ⟨?_, ?_, rfl⟩
  · intro hnz hc
    rcases hc with rfl | ⟨t, ok, rfl, hlt⟩
    · simp [download, hnz]
    · simp [download, hnz, hlt]
  · intro t ok
    simp [download]

/-- C6 witness: a hanging clone under a timeout of 5, and an undisturbed
hanging clone under timeout 0. -/
theorem C6_clone_timeout_witness :
    download 5 .hangs = .failure true true ∧ download 0 .hangs = .neverReturns :=
  ⟨(C6_clone_timeout 5 .hangs).1 (by decide) (Or.inl rfl),
   (C6_clone_timeout 0 .hangs).2.2⟩

/-- C7: a received descriptor whose full name is in the exclusion set
produces exactly the skip event at its position — never a clone launch —
and that event is the only one carrying its position; the skip itself
releases exactly one outstanding-work unit. -/
theorem C7_exclusion (excluded : List String) (ins : List Desc) (i : Nat) (d : Desc)
    (hi : ins.get? i = some d) (hx : excluded.contains d.fullname = true) :
    (consumeDls excluded ins).get? i = some (.skipped i d.fullname)
    ∧ (∀ j e, (consumeDls excluded ins).get? j = some e → eventIdx e = i → j = i)
    ∧ eventReleasesNow (DlEvent.skipped i d.fullname) = 1 := by
  unfold consumeDls
  have hx2 : d.fullname ∈ excluded := by simpa using hx
  refine ⟨?_, ?_, rfl⟩
  · rw [consumeDlsAux_get? excluded ins 0 i, hi]
    simp [hx2]
  · intro j e hj hidx
    rw [consumeDlsAux_get? excluded ins 0 j] at hj
    cases hg : ins.get? j with
    | none => rw [hg] at hj; cases hj
    | some d2 =>
      rw [hg] at hj
      by_cases hc : d2.fullname ∈ excluded <;>
        simp [hc] at hj <;> rw [← hj] at hidx <;>
        simp [eventIdx] at hidx <;> exact hidx

/-- C7 witness: the excluded descriptor "skip/me" at position 1. -/
theorem C7_exclusion_witness :
    (consumeDls ["skip/me"] c7Ins).get? 1 =
      some (.skipped 1 "skip/me")
    ∧ eventReleasesNow (DlEvent.skipped 1 "skip/me") = 1 :=
  ⟨(C7_exclusion ["skip/me"] c7Ins 1 (descOf "skip" (rmeta "skip/me" true))
      (by rfl) (by rfl)).1,
   (C7_exclusion ["skip/me"] c7Ins 1 (descOf "skip" (rmeta "skip/me" true))
      (by rfl) (by rfl)).2.2⟩

/-- C8: every failure while writing the archive propagates the error and
leaves no output file: a create failure returns before any file exists, a
working-root read failure or an insert failure deletes the partial
archive; in general a failing archive call either never created the file
or removed it. -/
theorem C8_archive_all_or_nothing (env : ArchiveEnv) :
    (env.createOk = false →
      archive env = { err := some .createErr, created := false, removed := false,
                      gzipFallback := false })
    ∧ (env.createOk = true → env.readDir = none →
        (archive env).err = some .readDirErr ∧ (archive env).removed = true)
    ∧ (∀ entries i, env.createOk = true → env.readDir = some entries →
        firstInsertErrIdx entries = some i →
        (archive env).err = some (.insertErr i) ∧ (archive env).removed = true)
    ∧ ((archive env).err.isSome → (archive env).created = false ∨ (archive env).removed = true) := by
  refine ⟨?_, ?_, ?_, ?_⟩
  · intro hc
    simp [archive, hc]
  · intro hc hr
    simp [archive, hc, hr]
  · intro entries i hc hr hi
    simp [archive, hc, hr, hi]
  · intro hsome
    by_cases hc : env.createOk
    · cases hr : env.readDir with
      | none => simp [archive, hc, hr]
      | some entries =>
        cases hi : firstInsertErrIdx entries with
        | none => simp [archive, hc, hr, hi] at hsome
        | some i => simp [archive, hc, hr, hi]
    · rw [Bool.not_eq_true] at hc
      simp [archive, hc]

/-- C8 witness: an archive call whose second insert fails. -/
theorem C8_archive_all_or_nothing_witness :
    (archive { level := 6, createOk := true, readDir := some [true, false],
               closeTarOk := true, closeGzipOk := true, closeFileOk := true }).err =
        some (.insertErr 1)
    ∧ (archive { level := 6, createOk := true, readDir := some [true, false],
                 closeTarOk := true, closeGzipOk := true, closeFileOk := true }).removed = true :=
  (C8_archive_all_or_nothing _).2.2.1 [true, false] 1 rfl rfl (by rfl)

/-- C9: an owner directory with zero entries contributes no archive
entries at all, and otherwise every entry written for the subtree is its
path relative to the working root joined with forward slashes — the same
names for every host separator. -/
theorem C9_forward_slash_entries (sep : Char) (name : List Char) (children : List FsNode)
    (hgood : goodTree sep (.dir name children) = true) :
    (children.length = 0 → insert sep (.dir name children) = .ok [])
    ∧ insert sep (.dir name children) =
        .ok (if children.length = 0 then []
             else (entryPaths (.dir name children)).map (fun p => joinSep '/' p)) := by
  constructor
  · intro hz
    simp [insert, hz]
  · by_cases hz : children.length = 0
    · simp [insert, hz]
    · simp only [insert, hz, if_false]
      have h := walkNames_spec sep [] (.dir name children) (by intro c hc; cases hc) hgood
      simp only [nodeName, List.nil_append] at h
      rw [h]

/-- C9 witness: the subtree alice/r1 with a README, walked with a
backslash separator, yields forward-slash entries. -/
theorem C9_forward_slash_entries_witness :
    insert '\\' c9Tree =
      .ok ((entryPaths c9Tree).map (fun p => joinSep '/' p)) := by
  have h := (C9_forward_slash_entries '\\' "alice".toList
    [.dir "r1".toList [.file "README".toList], .file "stray".toList] (by decide)).2
  simpa [c9Tree] using h

/-- C10: once create, the root read and every insert succeeded, archive
returns nil and the output file is kept, whatever the results of the
three deferred Close calls — their errors are discarded, so data buffered
in the tar or gzip writer at close time is outside the all-or-nothing
guarantee. -/
theorem C10_close_errors_ignored (level : Int) (entries : List Bool) (ct cg cf : Bool)
    (hok : firstInsertErrIdx entries = none) :
    archive { level := level, createOk := true, readDir := some entries,
              closeTarOk := ct, closeGzipOk := cg, closeFileOk := cf } =
      { err := none, created := true, removed := false,
        gzipFallback := !gzipLevelValid level } := by
  simp [archive, hok]

/-- C10 witness: all three Close calls fail, yet the archive call reports
success and keeps the file. -/
theorem C10_close_errors_ignored_witness :
    archive { level := 6, createOk := true, readDir := some [true],
              closeTarOk := false, closeGzipOk := false, closeFileOk := false } =
      { err := none, created := true, removed := false, gzipFallback := false } := by
  have h := C10_close_errors_ignored 6 [true] false false false (by rfl)
  simpa using h


end GhDl
